import Mathlib

/-!
# Verification of the hjmpy forward-curve / HJM calibration engine

Shallow embedding of the core of the `hjmpy` repository:

* `ForwardCurve` (src/hjmpy/forwardCurve/forwardCurve.py): maturity ladder,
  prices, log-linear interpolation (`scipy.interpolate.interp1d` over
  `(dates, log prices)` with `kind='linear'` and `fill_value="extrapolate"`),
  `log_returns` (`np.diff(np.log(prices))`) and `slice`.
* `Market` (src/hjmpy/market/market.py): a named association of curves.
* `ExponentialVolatilityModel`, `MultiFactorVolatilityModel`
  (src/hjmpy/volatilityModel/): volatility strategies.
* `HJMModel` (src/hjmpy/hjmModel.py): orchestrator with `calibrate`,
  `forward_dynamics` and `price_forward`.

Machine floats are idealised as real numbers.  Python exceptions are made
explicit: fallible operations return `Option`/`Except` values, with
`PyError` recording which kind of Python exception the source would raise.
-/

namespace Hjmpy

/-- Kinds of Python exceptions the embedded code paths can raise.
`keyError` models `dict[k]` failing, `attributeError` models attribute
access on `None` (as returned by `dict.get`), `indexError` models
out-of-range numpy indexing such as `arr[-1]` on an empty array, and
`valueError` models `ValueError` raised by library validation such as
`scipy.interpolate.interp1d` or `min()` on an empty sequence. -/
inductive PyError where
  | keyError
  | attributeError
  | indexError
  | valueError
deriving DecidableEq

/-- `ForwardCurve` data: the `dates` (maturity ladder) and `prices` arrays
stored by `ForwardCurve.__init__`. -/
structure ForwardCurve where
  dates : List ℝ
  prices : List ℝ

noncomputable section

/-- One log-linear segment through `(x0, y0)` and `(x1, y1)`, evaluated at
`x` (also used for linear extrapolation beyond the knot range). -/
def interpSeg (x0 y0 x1 y1 x : ℝ) : ℝ :=
  y0 + (y1 - y0) * (x - x0) / (x1 - x0)

/-- Piecewise-linear interpolation through the knot list `pts`
(assumed sorted by first component), the semantics of
`scipy.interpolate.interp1d(xs, ys, kind='linear', fill_value="extrapolate")`:
the segment whose right knot is the first knot `≥ x` is used, clipped to the
first/last segment outside the knot range (linear extrapolation). -/
def interpPts : List (ℝ × ℝ) → ℝ → ℝ
  | [], _ => 0
  | [p], _ => p.2
  | p :: q :: ps, x =>
    if x ≤ q.1 ∨ ps = [] then interpSeg p.1 p.2 q.1 q.2 x
    else interpPts (q :: ps) x

/-- `np.diff`: successive differences of a list. -/
def diffList (xs : List ℝ) : List ℝ :=
  (xs.zip xs.tail).map fun q => q.2 - q.1

/-- `ForwardCurve.get_forward(T)`: `exp` of the log-linear interpolant built
at construction over `(dates, np.log(prices))`, evaluated at `T`. -/
def ForwardCurve.get_forward (fc : ForwardCurve) (T : ℝ) : ℝ :=
  Real.exp (interpPts (fc.dates.zip (fc.prices.map Real.log)) T)

/-- `ForwardCurve.log_returns()`: `np.diff(np.log(self.prices))`. -/
def ForwardCurve.log_returns (fc : ForwardCurve) : List ℝ :=
  diffList (fc.prices.map Real.log)

/-- The fallible `ForwardCurve(dates, prices)` constructor.
`scipy.interpolate.interp1d` validates at construction time that the two
arrays have equal length and hold at least 2 entries
(`ValueError: x and y arrays must have at least 2 entries` otherwise);
`none` models that raise. -/
def ForwardCurve.mkChecked (dates prices : List ℝ) : Option ForwardCurve :=
  if dates.length = prices.length ∧ 2 ≤ dates.length then
    some ⟨dates, prices⟩
  else none

/-- `ForwardCurve.slice(start, end)`: keep the points whose date `d`
satisfies `start ≤ d ∧ d ≤ stop` (the boolean mask
`(self.dates >= start) & (self.dates <= end)` applied to `dates` and
`prices` in parallel), then rebuild a `ForwardCurve` — which re-runs the
constructor's `interp1d` validation. -/
def ForwardCurve.slice (fc : ForwardCurve) (start stop : ℝ) : Option ForwardCurve :=
  let kept := (fc.dates.zip fc.prices).filter fun q => decide (start ≤ q.1 ∧ q.1 ≤ stop)
  ForwardCurve.mkChecked (kept.map Prod.fst) (kept.map Prod.snd)

/-- `np.cumsum`: running sums starting from accumulator `a`. -/
def cumsumFrom (a : ℝ) : List ℝ → List ℝ
  | [] => []
  | x :: xs => (a + x) :: cumsumFrom (a + x) xs

/-- `np.cumsum` of a list. -/
def cumsum (l : List ℝ) : List ℝ := cumsumFrom 0 l

end

/-- `Market` (src/hjmpy/market/market.py): a name, an optional region tag,
a commodity tag, and an insertion-ordered mapping curve-name →
`ForwardCurve` (a Python dict, embedded as an association list). -/
structure Market where
  name : String
  region : Option String
  commodity : String
  curves : List (String × ForwardCurve)

/-- `Market.get_curve(curve_name)`: `self.curves.get(curve_name)` — returns
the curve if found, else `None` (no exception). -/
def Market.get_curve (mkt : Market) (curve_name : String) :
    Option ForwardCurve :=
  mkt.curves.lookup curve_name

/-- The value returned by a duck-typed `sigma(t, T)` call.
`HJMModel.forward_dynamics` branches on `isinstance(sigma, np.ndarray)`:
`vector` embeds an `np.ndarray` result (multi-factor models), `scalar` a
plain float (the exponential model). -/
inductive SigmaVal where
  | scalar (x : ℝ)
  | vector (xs : List ℝ)

/-- `ExponentialVolatilityModel` (src/hjmpy/volatilityModel/exponential.py):
parameters `gamma` and `k`. -/
structure ExponentialVolatilityModel where
  gamma : ℝ
  k : ℝ

noncomputable section

/-- `ExponentialVolatilityModel.sigma(t, T) = gamma * exp(-k * (T - t))`. -/
def ExponentialVolatilityModel.sigma (mdl : ExponentialVolatilityModel)
    (t T : ℝ) : ℝ :=
  mdl.gamma * Real.exp (-mdl.k * (T - t))

end

/-- The result of `sklearn.decomposition.PCA(...).fit(matrix)` as consumed
by `MultiFactorVolatilityModel.calibrate`: the principal components and the
explained-variance ratios.  PCA itself is an external library routine; only
which of its outputs are stored, and that `sigma` never reads them, matter
to the claims below. -/
structure PCAFit where
  components_ : List (List ℝ)
  explained_variance_ratio_ : List ℝ

/-- `MultiFactorVolatilityModel`
(src/hjmpy/volatilityModel/multiFactor.py): the factor count fixed at
construction and the PCA outputs stored by `calibrate` (`None` before the
first calibration). -/
structure MultiFactorVolatilityModel where
  n_factors : ℕ
  components_ : Option (List (List ℝ))
  explained_variance_ : Option (List ℝ)

/-- `MultiFactorVolatilityModel.calibrate(log_return_matrix)`: runs
`self.pca.fit(log_return_matrix)` (external sklearn call, whose outputs are
the supplied `fit`) and stores `pca.components_` and
`pca.explained_variance_ratio_`; nothing else changes. -/
def MultiFactorVolatilityModel.calibrate (mdl : MultiFactorVolatilityModel)
    (fit : PCAFit) : MultiFactorVolatilityModel :=
  { mdl with
    components_ := some fit.components_
    explained_variance_ := some fit.explained_variance_ratio_ }

noncomputable section

/-- `MultiFactorVolatilityModel.sigma(t, T)`:
`np.array([np.exp(-0.5 * (T - t))] * self.n_factors)`. -/
def MultiFactorVolatilityModel.sigma (mdl : MultiFactorVolatilityModel)
    (t T : ℝ) : List ℝ :=
  List.replicate mdl.n_factors (Real.exp (-0.5 * (T - t)))

end

/-- `HJMModel` (src/hjmpy/hjmModel.py): one volatility model (duck-typed,
so the embedding is parametric in its type `V`) and an insertion-ordered
mapping market-name → `Market`. -/
structure HJMModel (V : Type) where
  vol_model : V
  markets : List (String × Market)

noncomputable section

/-- The `returns` list built by `HJMModel.calibrate()`: for every curve of
every held market (iteration order of the dicts), if
`len(curve.prices) > 1` collect `curve.log_returns()`. -/
def HJMModel.collectedReturns {V : Type} (m : HJMModel V) :
    List (List ℝ) :=
  m.markets.flatMap fun mk =>
    mk.2.curves.filterMap fun c =>
      if 1 < c.2.prices.length then some c.2.log_returns else none

/-- The observation matrix built by `HJMModel.calibrate()`, as its list of
columns: `min_len = min(len(r) for r in returns)` (raising `ValueError`,
here `none`, when `returns` is empty), then
`np.column_stack([r[-min_len:] for r in returns])`.  Since every collected
return sequence is nonempty, `min_len ≥ 1` and the Python trailing slice
`r[-min_len:]` is exactly `r.drop (r.length - min_len)` (see
`collectedReturns_length_pos`). -/
def HJMModel.calibMatrix {V : Type} (m : HJMModel V) :
    Option (List (List ℝ)) :=
  match m.collectedReturns with
  | [] => none
  | r :: rs =>
      let min_len := rs.foldl (fun acc x => min acc x.length) r.length
      some ((r :: rs).map fun q => q.drop (q.length - min_len))

/-- `HJMModel.calibrate()`: build the observation matrix and hand it to the
volatility model's `calibrate` (the duck-typed call is the parameter
`calib`), which replaces the volatility model's calibrated state; `none`
models the `ValueError` raised on an empty `returns` list. -/
def HJMModel.calibrate {V : Type} (calib : V → List (List ℝ) → V)
    (m : HJMModel V) : Option (HJMModel V) :=
  match m.calibMatrix with
  | none => none
  | some mat => some { m with vol_model := calib m.vol_model mat }

/-- `HJMModel.forward_dynamics(market_name, curve_name, t0, t1)`:
`self.markets[market_name]` (a `KeyError` when absent), then
`market.get_curve(curve_name)` (which yields `None` when absent, so the
subsequent `curve.dates[-1]` raises `AttributeError`), then
`T = curve.dates[-1]` (an `IndexError` on an empty ladder),
`sigma = self.vol_model.sigma(t0, T)` (the duck-typed call is the
parameter `sig`), `var = sum(sigma**2) * (t1 - t0)` when `sigma` is an
`np.ndarray` else `sigma**2 * (t1 - t0)`, `F0 = curve.get_forward(T)`,
and the result `F0 * exp(-0.5 * var)`. -/
def HJMModel.forward_dynamics {V : Type} (sig : V → ℝ → ℝ → SigmaVal)
    (m : HJMModel V) (market_name curve_name : String) (t0 t1 : ℝ) :
    Except PyError ℝ :=
  match m.markets.lookup market_name with
  | none => Except.error PyError.keyError
  | some market =>
    match market.get_curve curve_name with
    | none => Except.error PyError.attributeError
    | some curve =>
      match curve.dates.getLast? with
      | none => Except.error PyError.indexError
      | some T =>
        let s := sig m.vol_model t0 T
        let var : ℝ :=
          match s with
          | SigmaVal.vector xs => (xs.map fun x => x ^ 2).sum * (t1 - t0)
          | SigmaVal.scalar x => x ^ 2 * (t1 - t0)
        let F0 := curve.get_forward T
        Except.ok (F0 * Real.exp (-0.5 * var))

/-- `HJMModel.price_forward(market_name, curve_name, t)`: the same lookups
as `forward_dynamics`, then `curve.get_forward(curve.dates[-1])`; the
argument `t` is accepted but never used. -/
def HJMModel.price_forward {V : Type} (m : HJMModel V)
    (market_name curve_name : String) (t : ℝ) : Except PyError ℝ :=
  match m.markets.lookup market_name with
  | none => Except.error PyError.keyError
  | some market =>
    match market.get_curve curve_name with
    | none => Except.error PyError.attributeError
    | some curve =>
      match curve.dates.getLast? with
      | none => Except.error PyError.indexError
      | some T => Except.ok (curve.get_forward T)

/-- The end-to-end demonstration curve of the spec: maturities
`[1,2,3,4,5]` (years) and prices `[3.0,3.1,3.05,3.2,3.3]`. -/
def demoCurve : ForwardCurve :=
  ⟨[1, 2, 3, 4, 5], [3.0, 3.1, 3.05, 3.2, 3.3]⟩

/-- A second small curve: 3 points, hence 2 log returns. -/
def demoCurveB : ForwardCurve := ⟨[1, 2, 3], [2.0, 4.0, 8.0]⟩

/-- A third small curve: 4 points, hence 3 log returns. -/
def demoCurveC : ForwardCurve := ⟨[1, 2, 3, 4], [1.0, 2.0, 4.0, 8.0]⟩

/-- The demonstration market holding `demoCurve` under the name `"KTM"`. -/
def demoMarket : Market := ⟨"Gas", none, "electricity", [("KTM", demoCurve)]⟩

/-- A market holding two curves with log-return sequences of differing
lengths (2 and 3). -/
def demoMarketB : Market :=
  ⟨"Gas", none, "gas", [("B", demoCurveB), ("C", demoCurveC)]⟩

/-- The scalar exponential volatility model of the spec's end-to-end test:
`gamma = 0.1`, `k = 0.0`. -/
def expModel : ExponentialVolatilityModel := ⟨0.1, 0⟩

/-- The duck-typed `sigma` of `ExponentialVolatilityModel`: a scalar. -/
def expSigma : ExponentialVolatilityModel → ℝ → ℝ → SigmaVal :=
  fun mdl t T => SigmaVal.scalar (mdl.sigma t T)

/-- The end-to-end demonstration HJM model: the exponential volatility
model and the one-curve market. -/
def demoHJM : HJMModel ExponentialVolatilityModel :=
  ⟨expModel, [("Gas", demoMarket)]⟩

/-- An HJM model (volatility model irrelevant, hence `Unit`) holding the
two-curve market, for exercising `calibrate`'s alignment. -/
def demoHJMB : HJMModel Unit := ⟨(), [("Gas", demoMarketB)]⟩

end

/-- A linear segment through two knots with distinct abscissae passes
through its right knot. -/
theorem interpSeg_right (x0 y0 x1 y1 : ℝ) (h : x0 < x1) :
    interpSeg x0 y0 x1 y1 x1 = y1 := by
  have hne : x1 - x0 ≠ 0 := ne_of_gt (sub_pos.mpr h)
  unfold interpSeg
  rw [mul_div_assoc, div_self hne, mul_one]
  ring

/-- A linear segment passes through its left knot. -/
theorem interpSeg_left (x0 y0 x1 y1 : ℝ) :
    interpSeg x0 y0 x1 y1 x0 = y0 := by
  unfold interpSeg
  simp

/-- The piecewise-linear interpolant is exact at every knot, provided the
knot abscissae are strictly increasing. -/
theorem interpPts_at_knot (pts : List (ℝ × ℝ))
    (hpw : (pts.map Prod.fst).Pairwise (· < ·)) :
    ∀ i (hi : i < pts.length),
      interpPts pts (pts.get ⟨i, hi⟩).1 = (pts.get ⟨i, hi⟩).2 := by
  induction pts with
  | nil => intro i hi; exact absurd hi (Nat.not_lt_zero i)
  | cons p rest ih =>
    intro i hi
    cases rest with
    | nil =>
      have hi1 : i < 1 := by simpa using hi
      have : i = 0 := by omega
      subst this
      simp [interpPts]
    | cons q ps =>
      have hpq : p.1 < q.1 := by
        simp only [List.map_cons, List.pairwise_cons] at hpw
        exact hpw.1 q.1 (by simp)
      cases i with
      | zero =>
        have hcond : (p.1 ≤ q.1 ∨ ps = []) := Or.inl (le_of_lt hpq)
        simp only [List.get, interpPts, if_pos hcond]
        exact interpSeg_left p.1 p.2 q.1 q.2
      | succ j =>
        have hj : j < (q :: ps).length := by
          simpa using Nat.lt_of_succ_lt_succ hi
        have hget : ((p :: q :: ps).get ⟨j + 1, hi⟩) = (q :: ps).get ⟨j, hj⟩ := rfl
        rw [hget]
        cases j with
        | zero =>
          have hcond : (q.1 ≤ q.1 ∨ ps = []) := Or.inl le_rfl
          simp only [List.get, interpPts, if_pos hcond]
          exact interpSeg_right p.1 p.2 q.1 q.2 hpq
        | succ j' =>
          cases ps with
          | nil => exact absurd hj (by simp)
          | cons r ps' =>
            have hj' : j' < (r :: ps').length := by
              simpa using Nat.lt_of_succ_lt_succ hj
            have hget2 : ((q :: r :: ps').get ⟨j' + 1, hj⟩) = (r :: ps').get ⟨j', hj'⟩ := rfl
            set x := ((r :: ps').get ⟨j', hj'⟩).1 with hxdef
            have hmem : x ∈ (r :: ps').map Prod.fst :=
              List.mem_map_of_mem Prod.fst (List.get_mem _ _ hj')
            have hqx : q.1 < x := by
              simp only [List.map_cons, List.pairwise_cons] at hpw
              exact hpw.2.1 x (by simpa using hmem)
            have hcond : ¬ (x ≤ q.1 ∨ r :: ps' = []) := by
              push_neg
              exact ⟨hqx, by simp⟩
            have htail : ((q :: r :: ps').map Prod.fst).Pairwise (· < ·) := by
              simp only [List.map_cons, List.pairwise_cons] at hpw ⊢
              exact hpw.2
            have := ih htail (j' + 1) hj
            rw [hget2]
            simp only [interpPts, hget2] at this ⊢
            rw [if_neg hcond]
            exact this

/-- `get_forward` is exact at every stored knot: with matching array
lengths, strictly increasing dates and positive prices,
`get_forward(dates[i]) = prices[i]`. -/
theorem ForwardCurve.get_forward_knot (fc : ForwardCurve)
    (hlen : fc.dates.length = fc.prices.length)
    (hmono : fc.dates.Pairwise (· < ·))
    (hpos : ∀ p ∈ fc.prices, 0 < p)
    (i : ℕ) (hi : i < fc.dates.length) (hi' : i < fc.prices.length) :
    fc.get_forward (fc.dates.get ⟨i, hi⟩) = fc.prices.get ⟨i, hi'⟩ := by
  have hlen2 : fc.dates.length ≤ (fc.prices.map Real.log).length := by
    simpa using hlen.le
  have hip : i < (fc.dates.zip (fc.prices.map Real.log)).length := by
    rw [List.length_zip]
    simp only [List.length_map]
    omega
  have hfst : (fc.dates.zip (fc.prices.map Real.log)).map Prod.fst = fc.dates :=
    List.map_fst_zip _ _ hlen2
  have hpw : ((fc.dates.zip (fc.prices.map Real.log)).map Prod.fst).Pairwise (· < ·) := by
    rw [hfst]; exact hmono
  have hknot := interpPts_at_knot _ hpw i hip
  have hget := @List.get_zip ℝ ℝ fc.dates (fc.prices.map Real.log) ⟨i, hip⟩
  rw [hget] at hknot
  simp only [List.get_map] at hknot
  unfold ForwardCurve.get_forward
  have hpt : fc.dates.get ⟨i, hi⟩ =
      fc.dates.get ⟨i, List.lt_length_left_of_zip hip⟩ := rfl
  rw [hpt, hknot]
  exact Real.exp_log (hpos _ (List.get_mem _ _ _))

/-- `np.diff` shortens a list by one. -/
theorem diffList_length (xs : List ℝ) : (diffList xs).length = xs.length - 1 := by
  unfold diffList
  rw [List.length_map, List.length_zip, List.length_tail]
  omega

/-- Entrywise description of `np.diff`. -/
theorem diffList_getD (xs : List ℝ) :
    ∀ i, i + 1 < xs.length →
      (diffList xs).getD i 0 = xs.getD (i + 1) 0 - xs.getD i 0 := by
  induction xs with
  | nil => intro i h; simp at h
  | cons a t ih =>
    intro i h
    cases t with
    | nil => simp at h
    | cons b t' =>
      cases i with
      | zero => rfl
      | succ j =>
        have hj : j + 1 < (b :: t').length := by
          simpa using Nat.lt_of_succ_lt_succ h
        exact ih j hj

/-- `getD` commutes with mapping `Real.log` (using `Real.log 0 = 0` for
the out-of-range default). -/
theorem getD_map_log (l : List ℝ) : ∀ k : ℕ,
    (l.map Real.log).getD k 0 = Real.log (l.getD k 0) := by
  induction l with
  | nil => intro k; simp [Real.log_zero]
  | cons a t ih =>
    intro k
    cases k with
    | zero => rfl
    | succ j => exact ih j

/-- Cumulative summation inverts `np.diff`, given the starting value. -/
theorem cumsumFrom_diffList (t : List ℝ) : ∀ a : ℝ,
    cumsumFrom a (diffList (a :: t)) = t := by
  induction t with
  | nil => intro a; rfl
  | cons b t' ih =>
    intro a
    show (a + (b - a)) :: cumsumFrom (a + (b - a)) (diffList (b :: t')) = b :: t'
    have hab : a + (b - a) = b := by ring
    rw [hab, ih b]

/-- C3: for every `ForwardCurve` with at least 2 points and strictly
positive prices, `log_returns()` has length `len(prices) - 1`, its `i`-th
element is `log(prices[i+1]) - log(prices[i])` in stored order, and
exponentiating the cumulative sum of `log_returns()` prepended with
`log(prices[0])` reconstructs the original `prices` sequence. -/
theorem C3_log_returns_reconstruct (fc : ForwardCurve)
    (h2 : 2 ≤ fc.prices.length) (hpos : ∀ p ∈ fc.prices, 0 < p) :
    fc.log_returns.length = fc.prices.length - 1
  ∧ (∀ i, i + 1 < fc.prices.length →
      fc.log_returns.getD i 0 =
        Real.log (fc.prices.getD (i + 1) 0) - Real.log (fc.prices.getD i 0))
  ∧ (cumsum (Real.log fc.prices.headI :: fc.log_returns)).map Real.exp
      = fc.prices := by
  obtain ⟨p0, rest, hpr⟩ : ∃ p0 rest, fc.prices = p0 :: rest := by
    cases hfp : fc.prices with
    | nil => rw [hfp] at h2; simp at h2
    | cons a t => exact ⟨a, t, rfl⟩
  refine ⟨?_, ?_, ?_⟩
  · unfold ForwardCurve.log_returns
    rw [diffList_length, List.length_map]
  · intro i hi
    unfold ForwardCurve.log_returns
    rw [diffList_getD _ i (by simpa using hi), getD_map_log, getD_map_log]
  · have hp0 : 0 < p0 := hpos p0 (by rw [hpr]; exact List.mem_cons_self _ _)
    have hposr : ∀ p ∈ rest, 0 < p := fun p hp =>
      hpos p (by rw [hpr]; exact List.mem_cons_of_mem _ hp)
    unfold ForwardCurve.log_returns
    rw [hpr]
    show (cumsum (Real.log p0 ::
        diffList (Real.log p0 :: rest.map Real.log))).map Real.exp = p0 :: rest
    have hcs : cumsum (Real.log p0 ::
        diffList (Real.log p0 :: rest.map Real.log))
        = Real.log p0 :: rest.map Real.log := by
      unfold cumsum
      show (0 + Real.log p0) :: cumsumFrom (0 + Real.log p0)
          (diffList (Real.log p0 :: rest.map Real.log)) = _
      rw [zero_add, cumsumFrom_diffList]
    rw [hcs]
    show Real.exp (Real.log p0) :: (rest.map Real.log).map Real.exp = p0 :: rest
    rw [Real.exp_log hp0, List.map_map]
    congr 1
    calc rest.map (Real.exp ∘ Real.log)
        = rest.map id := List.map_congr_left fun p hp => Real.exp_log (hposr p hp)
      _ = rest := List.map_id rest

/-- C3 witness: the demonstration curve has ≥ 2 positive prices; its second
log return is `log 3.05 - log 3.1` and exponentiating the cumulated,
`log(prices[0])`-prepended returns gives back the stored prices. -/
theorem C3_witness :
    (2 ≤ demoCurve.prices.length ∧ ∀ p ∈ demoCurve.prices, 0 < p)
  ∧ demoCurve.log_returns.getD 1 0
      = Real.log (3.05 : ℝ) - Real.log (3.1 : ℝ)
  ∧ (cumsum (Real.log demoCurve.prices.headI :: demoCurve.log_returns)).map
      Real.exp = demoCurve.prices := by
  have hlen : (2 : ℕ) ≤ demoCurve.prices.length := by simp [demoCurve]
  have hpos : ∀ p ∈ demoCurve.prices, 0 < p := by
    intro p hp
    simp only [demoCurve, List.mem_cons, List.not_mem_nil, or_false] at hp
    rcases hp with rfl | rfl | rfl | rfl | rfl <;> norm_num
  have h := C3_log_returns_reconstruct demoCurve hlen hpos
  refine ⟨⟨hlen, hpos⟩, ?_, h.2.2⟩
  have := h.2.1 1 (by simp [demoCurve])
  simpa [demoCurve] using this

/-- C4: for every `ForwardCurve` with at least 2 points, matching array
lengths, strictly positive prices and strictly increasing dates,
`get_forward` evaluated at any stored maturity `dates[i]` returns the
stored price `prices[i]` (exactly, in the real-number idealisation of
floating point): the log-linear interpolant is exact at its knots. -/
theorem C4_get_forward_exact_at_knots (fc : ForwardCurve)
    (h2 : 2 ≤ fc.dates.length)
    (hlen : fc.dates.length = fc.prices.length)
    (hpos : ∀ p ∈ fc.prices, 0 < p)
    (hmono : fc.dates.Chain' (· < ·))
    (i : ℕ) (hi : i < fc.dates.length) (hi' : i < fc.prices.length) :
    fc.get_forward (fc.dates.get ⟨i, hi⟩) = fc.prices.get ⟨i, hi'⟩ :=
  fc.get_forward_knot hlen (List.chain'_iff_pairwise.mp hmono) hpos i hi hi'

/-- C4 witness: on the demonstration curve, `get_forward 3 = 3.05` (knot
`i = 2`), with all hypotheses checked concretely. -/
theorem C4_witness :
    (2 ≤ demoCurve.dates.length
      ∧ demoCurve.dates.length = demoCurve.prices.length
      ∧ (∀ p ∈ demoCurve.prices, 0 < p)
      ∧ demoCurve.dates.Chain' (· < ·))
  ∧ demoCurve.get_forward 3 = 3.05 := by
  have hpos : ∀ p ∈ demoCurve.prices, 0 < p := by
    intro p hp
    simp only [demoCurve, List.mem_cons, List.not_mem_nil, or_false] at hp
    rcases hp with rfl | rfl | rfl | rfl | rfl <;> norm_num
  have hmono : demoCurve.dates.Chain' (· < ·) := by
    simp only [demoCurve, List.chain'_cons, List.chain'_singleton, and_true]
    norm_num
  refine ⟨⟨by simp [demoCurve], by simp [demoCurve], hpos, hmono⟩, ?_⟩
  exact C4_get_forward_exact_at_knots demoCurve (by simp [demoCurve])
    (by simp [demoCurve]) hpos hmono 2 (by simp [demoCurve]) (by simp [demoCurve])

/-- `slice` unfolded: filter the zipped points, then re-run the checked
constructor. -/
theorem slice_eq (fc : ForwardCurve) (s e : ℝ) :
    fc.slice s e = ForwardCurve.mkChecked
      (((fc.dates.zip fc.prices).filter
          fun q => decide (s ≤ q.1 ∧ q.1 ≤ e)).map Prod.fst)
      (((fc.dates.zip fc.prices).filter
          fun q => decide (s ≤ q.1 ∧ q.1 ≤ e)).map Prod.snd) := rfl

/-- Filtering a zip of equally long lists by a predicate on the first
component, then projecting to first components, is filtering the first
list. -/
theorem filter_zip_fst (pred : ℝ → Bool) :
    ∀ (l₁ l₂ : List ℝ), l₁.length = l₂.length →
      ((l₁.zip l₂).filter (fun q => pred q.1)).map Prod.fst
        = l₁.filter pred := by
  intro l₁
  induction l₁ with
  | nil => intro l₂ _; simp
  | cons a t ih =>
    intro l₂ h
    cases l₂ with
    | nil => simp at h
    | cons b t' =>
      have h' : t.length = t'.length := by simpa using h
      cases hpa : pred a
      · simp [List.filter_cons, hpa, ih t' h']
      · simp [List.filter_cons, hpa, ih t' h']

/-- Re-zipping the two projections of a list of pairs is the identity. -/
theorem zip_map_fst_snd {α β : Type} (l : List (α × β)) :
    (l.map Prod.fst).zip (l.map Prod.snd) = l := by
  induction l with
  | nil => rfl
  | cons p t ih => simp [ih]

/-- C5 (amended: `slice` raises, via the constructor's `interp1d`
validation, when fewer than 2 points fall in range — see the C5
counterexample and C9 — so at least 2 captured points are assumed):
`slice(start, end)` returns a curve whose dates are exactly the stored
dates `d` with `start ≤ d ≤ end` in original stored order, with the
matching prices elementwise; the source curve is not mutated (`slice` is
a pure function of the source here, so the source data is unchanged by
construction). -/
theorem C5_slice_filters (fc : ForwardCurve) (s e : ℝ)
    (hlen : fc.dates.length = fc.prices.length)
    (h2 : 2 ≤ (fc.dates.filter fun d => decide (s ≤ d ∧ d ≤ e)).length) :
    (fc.slice s e).map ForwardCurve.dates
        = some (fc.dates.filter fun d => decide (s ≤ d ∧ d ≤ e))
  ∧ (fc.slice s e).map (fun c => c.dates.zip c.prices)
        = some ((fc.dates.zip fc.prices).filter
            fun q => decide (s ≤ q.1 ∧ q.1 ≤ e)) := by
  have hk : (((fc.dates.zip fc.prices).filter
        fun q => decide (s ≤ q.1 ∧ q.1 ≤ e)).map Prod.fst)
      = fc.dates.filter (fun d => decide (s ≤ d ∧ d ≤ e)) := by
    simpa using filter_zip_fst (fun d => decide (s ≤ d ∧ d ≤ e))
      fc.dates fc.prices hlen
  rw [slice_eq]
  unfold ForwardCurve.mkChecked
  rw [if_pos ⟨by simp, by rw [hk]; exact h2⟩]
  refine ⟨by simpa using hk, ?_⟩
  simp only [Option.map_some']
  rw [zip_map_fst_snd]

/-- C5 counterexample: on the demonstration curve the range `[0, 1.5]`
captures exactly one stored point, and `slice` then fails (the rebuilt
curve's `interp1d` raises) instead of returning a one-point sub-curve as
the claim, quantified over every `(start, end)` pair, requires. -/
theorem C5_counterexample :
    (demoCurve.dates.filter
        fun d => decide ((0 : ℝ) ≤ d ∧ d ≤ 1.5)).length = 1
  ∧ demoCurve.slice 0 1.5 = none := by
  constructor
  · simp only [demoCurve, List.filter_cons, List.filter_nil,
      decide_eq_true_eq]
    norm_num
  · rw [slice_eq]
    have hkept : ((demoCurve.dates.zip demoCurve.prices).filter
        fun q => decide ((0 : ℝ) ≤ q.1 ∧ q.1 ≤ 1.5)) = [((1 : ℝ), (3.0 : ℝ))] := by
      simp only [demoCurve, List.zip_cons_cons, List.zip_nil_right,
        List.filter_cons, List.filter_nil, decide_eq_true_eq]
      norm_num
    rw [hkept]
    unfold ForwardCurve.mkChecked
    rw [if_neg]
    intro hc
    simp at hc

/-- C5 witness: slicing the demonstration curve to `[1.5, 4.5]` keeps
exactly the three points at dates `2, 3, 4`, with their prices. -/
theorem C5_witness :
    (demoCurve.dates.length = demoCurve.prices.length
      ∧ 2 ≤ (demoCurve.dates.filter
          fun d => decide ((1.5 : ℝ) ≤ d ∧ d ≤ 4.5)).length)
  ∧ (demoCurve.slice 1.5 4.5).map ForwardCurve.dates
      = some (demoCurve.dates.filter
          fun d => decide ((1.5 : ℝ) ≤ d ∧ d ≤ 4.5))
  ∧ (demoCurve.slice 1.5 4.5).map (fun c => c.dates.zip c.prices)
      = some ((demoCurve.dates.zip demoCurve.prices).filter
          fun q => decide ((1.5 : ℝ) ≤ q.1 ∧ q.1 ≤ 4.5)) := by
  have hlen : demoCurve.dates.length = demoCurve.prices.length := by
    simp [demoCurve]
  have h2 : 2 ≤ (demoCurve.dates.filter
      fun d => decide ((1.5 : ℝ) ≤ d ∧ d ≤ 4.5)).length := by
    simp only [demoCurve, List.filter_cons, List.filter_nil,
      decide_eq_true_eq]
    norm_num
  have h := C5_slice_filters demoCurve 1.5 4.5 hlen h2
  exact ⟨⟨hlen, h2⟩, h.1, h.2⟩

/-- C9: constructing a `ForwardCurve` on fewer than 2 points fails at
construction time (`interp1d` requires at least 2 data points), and
consequently `slice(start, end)` fails, rather than returning a degenerate
curve, whenever the inclusive range `[start, end]` captures fewer than 2 of
the source curve's points. -/
theorem C9_too_few_points (dates prices : List ℝ) (fc : ForwardCurve)
    (s e : ℝ) (h1 : dates.length < 2)
    (hlen : fc.dates.length = fc.prices.length)
    (h2 : (fc.dates.filter fun d => decide (s ≤ d ∧ d ≤ e)).length < 2) :
    ForwardCurve.mkChecked dates prices = none ∧ fc.slice s e = none := by
  constructor
  · unfold ForwardCurve.mkChecked
    rw [if_neg]
    intro hc
    omega
  · rw [slice_eq]
    unfold ForwardCurve.mkChecked
    rw [if_neg]
    intro hc
    have hlk := hc.2
    rw [List.length_map] at hlk
    have hk : (((fc.dates.zip fc.prices).filter
          fun q => decide (s ≤ q.1 ∧ q.1 ≤ e)).map Prod.fst)
        = fc.dates.filter (fun d => decide (s ≤ d ∧ d ≤ e)) := by
      simpa using filter_zip_fst (fun d => decide (s ≤ d ∧ d ≤ e))
        fc.dates fc.prices hlen
    have : ((fc.dates.zip fc.prices).filter
        fun q => decide (s ≤ q.1 ∧ q.1 ≤ e)).length
        = (fc.dates.filter fun d => decide (s ≤ d ∧ d ≤ e)).length := by
      rw [← hk, List.length_map]
    omega

/-- C9 witness: a one-point construction fails, and slicing the
demonstration curve to `[0, 1.2]` (which captures only the date `1`)
fails. -/
theorem C9_witness :
    (([(1 : ℝ)] : List ℝ).length < 2
      ∧ demoCurve.dates.length = demoCurve.prices.length
      ∧ (demoCurve.dates.filter
          fun d => decide ((0 : ℝ) ≤ d ∧ d ≤ 1.2)).length < 2)
  ∧ ForwardCurve.mkChecked [(1 : ℝ)] [(3.0 : ℝ)] = none
  ∧ demoCurve.slice 0 1.2 = none := by
  have hfl : (demoCurve.dates.filter
      fun d => decide ((0 : ℝ) ≤ d ∧ d ≤ 1.2)).length < 2 := by
    simp only [demoCurve, List.filter_cons, List.filter_nil,
      decide_eq_true_eq]
    norm_num
  have h := C9_too_few_points [(1 : ℝ)] [(3.0 : ℝ)] demoCurve 0 1.2
    (by simp) (by simp [demoCurve]) hfl
  exact ⟨⟨by simp, by simp [demoCurve], hfl⟩, h.1, h.2⟩

/-- On the demonstration curve, `get_forward` at the terminal maturity `5`
returns the terminal price `3.3` (knot exactness at index 4). -/
theorem demoCurve_get_forward_last : demoCurve.get_forward 5 = 3.3 := by
  have hpos : ∀ p ∈ demoCurve.prices, 0 < p := by
    intro p hp
    simp only [demoCurve, List.mem_cons, List.not_mem_nil, or_false] at hp
    rcases hp with rfl | rfl | rfl | rfl | rfl <;> norm_num
  have hmono : demoCurve.dates.Pairwise (· < ·) := by
    apply List.chain'_iff_pairwise.mp
    simp only [demoCurve, List.chain'_cons, List.chain'_singleton, and_true]
    norm_num
  exact ForwardCurve.get_forward_knot demoCurve (by simp [demoCurve]) hmono
    hpos 4 (by simp [demoCurve]) (by simp [demoCurve])

/-- C1: for every registered `market_name` and `curve_name`,
`forward_dynamics(market_name, curve_name, t0, t1)` returns
`F0 * exp(-0.5 * variance)` with `T` the curve's last stored maturity,
`F0 = curve.get_forward(T)`, and `variance` the factor-variance sum
`sum(sigma(t0,T)^2) * (t1-t0)` when the volatility model's `sigma` returns
a vector, else the scalar `sigma(t0,T)^2 * (t1-t0)`. -/
theorem C1_forward_dynamics_formula {V : Type} (sig : V → ℝ → ℝ → SigmaVal)
    (m : HJMModel V) (market_name curve_name : String) (t0 t1 : ℝ)
    (mkt : Market) (c : ForwardCurve) (T : ℝ)
    (hm : m.markets.lookup market_name = some mkt)
    (hc : mkt.get_curve curve_name = some c)
    (hT : c.dates.getLast? = some T) :
    m.forward_dynamics sig market_name curve_name t0 t1
      = Except.ok (c.get_forward T * Real.exp (-0.5 *
          (match sig m.vol_model t0 T with
           | SigmaVal.vector xs => (xs.map fun x => x ^ 2).sum * (t1 - t0)
           | SigmaVal.scalar x => x ^ 2 * (t1 - t0)))) := by
  simp only [HJMModel.forward_dynamics, hm, hc, hT]

/-- C1 witness: the spec's end-to-end setting — one market `"Gas"`, curve
prices ending in `3.3`, scalar exponential model `gamma=0.1, k=0.0`,
`t0=0, t1=1` — yields `3.3 * exp(-0.5 * 0.01 * 1)`. -/
theorem C1_witness :
    (demoHJM.markets.lookup "Gas" = some demoMarket
      ∧ demoMarket.get_curve "KTM" = some demoCurve
      ∧ demoCurve.dates.getLast? = some 5)
  ∧ demoHJM.forward_dynamics expSigma "Gas" "KTM" 0 1
      = Except.ok ((3.3 : ℝ) * Real.exp (-0.5 * 0.01 * 1)) := by
  have hm : demoHJM.markets.lookup "Gas" = some demoMarket := by
    simp [demoHJM, List.lookup]
  have hc : demoMarket.get_curve "KTM" = some demoCurve := by
    simp [demoMarket, Market.get_curve, List.lookup]
  have hT : demoCurve.dates.getLast? = some 5 := by
    simp [demoCurve]
  have h := C1_forward_dynamics_formula expSigma demoHJM "Gas" "KTM" 0 1
    demoMarket demoCurve 5 hm hc hT
  refine ⟨⟨hm, hc, hT⟩, ?_⟩
  rw [h, demoCurve_get_forward_last]
  have hs : expModel.sigma 0 5 = 0.1 := by
    simp [ExponentialVolatilityModel.sigma, expModel, Real.exp_zero]
  have hv : demoHJM.vol_model = expModel := rfl
  simp only [expSigma, hv, hs]
  norm_num

/-- C6: for every registered `market_name` and `curve_name`,
`price_forward(market_name, curve_name, t)` returns the named curve's
`get_forward` at that curve's last stored maturity `dates[-1]`, and the
result is identical for every value of `t` (accepted but unused). -/
theorem C6_price_forward_terminal {V : Type} (m : HJMModel V)
    (market_name curve_name : String) (t : ℝ) (mkt : Market)
    (c : ForwardCurve) (T : ℝ)
    (hm : m.markets.lookup market_name = some mkt)
    (hc : mkt.get_curve curve_name = some c)
    (hT : c.dates.getLast? = some T) :
    m.price_forward market_name curve_name t = Except.ok (c.get_forward T)
  ∧ ∀ t' : ℝ, m.price_forward market_name curve_name t
      = m.price_forward market_name curve_name t' := by
  constructor
  · simp only [HJMModel.price_forward, hm, hc, hT]
  · intro t'
    rfl

/-- C6 witness: on the demonstration model, `price_forward` returns the
terminal price `3.3` and is unchanged when `t` moves from `0` to `42`. -/
theorem C6_witness :
    (demoHJM.markets.lookup "Gas" = some demoMarket
      ∧ demoMarket.get_curve "KTM" = some demoCurve
      ∧ demoCurve.dates.getLast? = some 5)
  ∧ demoHJM.price_forward "Gas" "KTM" 0 = Except.ok (3.3 : ℝ)
  ∧ demoHJM.price_forward "Gas" "KTM" 0
      = demoHJM.price_forward "Gas" "KTM" 42 := by
  have hm : demoHJM.markets.lookup "Gas" = some demoMarket := by
    simp [demoHJM, List.lookup]
  have hc : demoMarket.get_curve "KTM" = some demoCurve := by
    simp [demoMarket, Market.get_curve, List.lookup]
  have hT : demoCurve.dates.getLast? = some 5 := by
    simp [demoCurve]
  have h := C6_price_forward_terminal demoHJM "Gas" "KTM" 0
    demoMarket demoCurve 5 hm hc hT
  refine ⟨⟨hm, hc, hT⟩, ?_, h.2 42⟩
  rw [h.1, demoCurve_get_forward_last]

/-- C7 (amended: both lookups fail by raising, but only the market lookup
fails as a plain key-lookup on a name mapping — `self.markets[market_name]`
raises `KeyError`; an unknown `curve_name` makes `Market.get_curve` return
`None`, so the subsequent `curve.dates[-1]` raises `AttributeError`):
`forward_dynamics` and `price_forward` fail on an unregistered
`market_name` with a key-lookup failure, and on a registered market with an
unregistered `curve_name` with an attribute-access failure on `None`. -/
theorem C7_unknown_name_failures {V : Type} (sig : V → ℝ → ℝ → SigmaVal)
    (m : HJMModel V) (market_name curve_name : String) (t0 t1 t : ℝ)
    (mkt : Market) :
    (m.markets.lookup market_name = none →
      m.forward_dynamics sig market_name curve_name t0 t1
          = Except.error PyError.keyError
        ∧ m.price_forward market_name curve_name t
          = Except.error PyError.keyError)
  ∧ (m.markets.lookup market_name = some mkt →
      mkt.get_curve curve_name = none →
      m.forward_dynamics sig market_name curve_name t0 t1
          = Except.error PyError.attributeError
        ∧ m.price_forward market_name curve_name t
          = Except.error PyError.attributeError) := by
  constructor
  · intro hm
    constructor
    · simp only [HJMModel.forward_dynamics, hm]
    · simp only [HJMModel.price_forward, hm]
  · intro hm hc
    constructor
    · simp only [HJMModel.forward_dynamics, hm, hc]
    · simp only [HJMModel.price_forward, hm, hc]

/-- C7 counterexample: on the demonstration model, looking up the
unregistered curve name `"Brent"` in the registered market `"Gas"` fails
with an attribute-access error on `None`, not with the key-lookup failure
the claim asserts for both name arguments. -/
theorem C7_counterexample :
    demoMarket.get_curve "Brent" = none
  ∧ demoHJM.forward_dynamics expSigma "Gas" "Brent" 0 1
      = Except.error PyError.attributeError
  ∧ (Except.error PyError.attributeError : Except PyError ℝ)
      ≠ Except.error PyError.keyError := by
  refine ⟨by simp [demoMarket, Market.get_curve, List.lookup], ?_, by simp⟩
  have hm : demoHJM.markets.lookup "Gas" = some demoMarket := by
    simp [demoHJM, List.lookup]
  have hc : demoMarket.get_curve "Brent" = none := by
    simp [demoMarket, Market.get_curve, List.lookup]
  simp only [HJMModel.forward_dynamics, hm, hc]

/-- C7 witness: both failure modes of the amended claim, concretely — the
unregistered market `"Oil"` gives `KeyError`, the unregistered curve
`"WTI"` in the registered market `"Gas"` gives `AttributeError`. -/
theorem C7_witness :
    (demoHJM.markets.lookup "Oil" = none
      ∧ demoHJM.forward_dynamics expSigma "Oil" "KTM" 0 1
          = Except.error PyError.keyError
      ∧ demoHJM.price_forward "Oil" "KTM" 0 = Except.error PyError.keyError)
  ∧ (demoHJM.markets.lookup "Gas" = some demoMarket
      ∧ demoMarket.get_curve "WTI" = none
      ∧ demoHJM.forward_dynamics expSigma "Gas" "WTI" 0 1
          = Except.error PyError.attributeError
      ∧ demoHJM.price_forward "Gas" "WTI" 0
          = Except.error PyError.attributeError) := by
  have hm0 : demoHJM.markets.lookup "Oil" = none := by
    simp [demoHJM, demoMarket, List.lookup]
  have hm : demoHJM.markets.lookup "Gas" = some demoMarket := by
    simp [demoHJM, List.lookup]
  have hc0 : demoMarket.get_curve "WTI" = none := by
    simp [demoMarket, Market.get_curve, List.lookup]
  have h := C7_unknown_name_failures expSigma demoHJM "Oil" "KTM" 0 1 0 demoMarket
  have h' := C7_unknown_name_failures expSigma demoHJM "Gas" "WTI" 0 1 0 demoMarket
  exact ⟨⟨hm0, (h.1 hm0).1, (h.1 hm0).2⟩,
    ⟨hm, hc0, (h'.2 hm hc0).1, (h'.2 hm hc0).2⟩⟩

/-- C8: `MultiFactorVolatilityModel.sigma(t, T)` is the vector of length
`n_factors` with every component `exp(-0.5 * (T - t))`, and `calibrate`
(which only stores the PCA outputs `components_` and
`explained_variance_`) leaves both `sigma`'s value and `n_factors`
unchanged — `sigma` does not consume the calibrated state. -/
theorem C8_multifactor_sigma_decoupled (mdl : MultiFactorVolatilityModel)
    (fit : PCAFit) (t T : ℝ) :
    (mdl.sigma t T).length = mdl.n_factors
  ∧ mdl.sigma t T
      = List.replicate mdl.n_factors (Real.exp (-0.5 * (T - t)))
  ∧ (mdl.calibrate fit).sigma t T = mdl.sigma t T
  ∧ (mdl.calibrate fit).n_factors = mdl.n_factors :=
  ⟨List.length_replicate _ _, rfl, rfl, rfl⟩

/-- Folding `Nat.min` over a list yields a member of the list (the seed
included). -/
theorem foldl_min_mem (ns : List ℕ) : ∀ n : ℕ,
    ns.foldl min n ∈ n :: ns := by
  induction ns with
  | nil => intro n; simp
  | cons a t ih =>
    intro n
    rw [List.foldl_cons]
    rcases List.mem_cons.mp (ih (min n a)) with h1 | h1
    · rcases le_total n a with hle | hle
      · rw [h1, min_eq_left hle]
        exact List.mem_cons_self _ _
      · rw [h1, min_eq_right hle]
        exact List.mem_cons_of_mem _ (List.mem_cons_self _ _)
    · exact List.mem_cons_of_mem _ (List.mem_cons_of_mem _ h1)

/-- Folding `Nat.min` over a list bounds every member (the seed
included). -/
theorem foldl_min_le (ns : List ℕ) : ∀ n x : ℕ,
    x ∈ n :: ns → ns.foldl min n ≤ x := by
  induction ns with
  | nil =>
    intro n x hx
    rw [List.mem_singleton] at hx
    subst hx
    exact le_refl _
  | cons a t ih =>
    intro n x hx
    rw [List.foldl_cons]
    rcases List.mem_cons.mp hx with rfl | hx'
    · exact le_trans (ih (min x a) _ (List.mem_cons_self _ _))
        (min_le_left _ _)
    · rcases List.mem_cons.mp hx' with rfl | hx''
      · exact le_trans (ih (min n x) _ (List.mem_cons_self _ _))
          (min_le_right _ _)
      · exact ih (min n a) x (List.mem_cons_of_mem _ hx'')

/-- Per-market shape of the collection step of `HJMModel.calibrate()`: the
`filterMap` over the curve mapping collects `log_returns()` of exactly the
curves with at least 2 stored prices, in stored order. -/
theorem filterMap_returns_eq (cs : List (String × ForwardCurve)) :
    (cs.filterMap fun c =>
        if 1 < c.2.prices.length then some c.2.log_returns else none)
      = ((cs.map Prod.snd).filter fun c => decide (2 ≤ c.prices.length)).map
          ForwardCurve.log_returns := by
  induction cs with
  | nil => rfl
  | cons c t ih =>
    by_cases h : 1 < c.2.prices.length
    · have h2 : 2 ≤ c.2.prices.length := h
      simp [List.filterMap_cons, List.filter_cons, h, h2, ih]
    · have h2 : ¬ 2 ≤ c.2.prices.length := h
      simp [List.filterMap_cons, List.filter_cons, h, h2, ih]

/-- The collection step across markets equals: take all curves of all held
markets, keep those with at least 2 stored points, map `log_returns`. -/
theorem collected_eq_spec (mks : List (String × Market)) :
    (mks.flatMap fun mk =>
        mk.2.curves.filterMap fun c =>
          if 1 < c.2.prices.length then some c.2.log_returns else none)
      = ((mks.flatMap fun mk => mk.2.curves.map Prod.snd).filter
          fun c => decide (2 ≤ c.prices.length)).map
            ForwardCurve.log_returns := by
  induction mks with
  | nil => rfl
  | cons mk t ih =>
    rw [List.flatMap_cons, List.flatMap_cons, List.filter_append,
      List.map_append, filterMap_returns_eq, ih]

/-- Every collected return sequence is nonempty (its source curve has more
than one price), which is what makes the embedding of the Python trailing
slice `r[-min_len:]` as `r.drop (r.length - min_len)` exact: the two agree
whenever `min_len ≥ 1`. -/
theorem collectedReturns_length_pos {V : Type} (m : HJMModel V) :
    ∀ r ∈ m.collectedReturns, 1 ≤ r.length := by
  intro r hr
  unfold HJMModel.collectedReturns at hr
  simp only [List.mem_flatMap, List.mem_filterMap] at hr
  obtain ⟨mk, _, c, _, hc⟩ := hr
  by_cases h : 1 < c.2.prices.length
  · rw [if_pos h] at hc
    cases hc
    unfold ForwardCurve.log_returns
    rw [diffList_length, List.length_map]
    omega
  · rw [if_neg h] at hc
    cases hc

/-- C2: `HJMModel.calibrate()` collects `log_returns()` from exactly those
curves, across all held markets, that have at least 2 stored points; it
fails (the `min` over an empty sequence raises) iff that collection is
empty; and the observation matrix it passes to the volatility model's
`calibrate` has as columns the collected sequences each truncated to its
trailing segment of the minimum collected length `L`. -/
theorem C2_calibrate_collection_alignment {V : Type} (m : HJMModel V) :
    m.collectedReturns
      = ((m.markets.flatMap fun mk => mk.2.curves.map Prod.snd).filter
          fun c => decide (2 ≤ c.prices.length)).map ForwardCurve.log_returns
  ∧ (m.calibMatrix = none ↔ m.collectedReturns = [])
  ∧ ∀ mat, m.calibMatrix = some mat →
      ∃ L, L ∈ m.collectedReturns.map List.length
        ∧ (∀ n ∈ m.collectedReturns.map List.length, L ≤ n)
        ∧ mat = m.collectedReturns.map fun r => r.drop (r.length - L) := by
  refine ⟨collected_eq_spec m.markets, ?_, ?_⟩
  · cases h : m.collectedReturns with
    | nil => simp [HJMModel.calibMatrix, h]
    | cons r rs => simp [HJMModel.calibMatrix, h]
  · intro mat hmat
    cases h : m.collectedReturns with
    | nil => rw [HJMModel.calibMatrix, h] at hmat; cases hmat
    | cons r rs =>
      rw [HJMModel.calibMatrix, h] at hmat
      simp only [Option.some.injEq] at hmat
      refine ⟨rs.foldl (fun acc x => min acc x.length) r.length,
        ?_, ?_, ?_⟩
      · rw [← List.foldl_map (f := List.length) (g := min)]
        rw [List.map_cons]
        exact foldl_min_mem _ _
      · intro n hn
        rw [← List.foldl_map (f := List.length) (g := min)]
        rw [List.map_cons] at hn
        exact foldl_min_le _ _ _ hn
      · rw [← hmat]

/-- The calibration matrix of the two-curve demonstration model: the
3-point curve contributes both its log returns, the 4-point curve only the
trailing 2 of its 3 log returns. -/
theorem demoHJMB_calibMatrix :
    demoHJMB.calibMatrix
      = some [demoCurveB.log_returns, demoCurveC.log_returns.drop 1] := by
  have hcol : demoHJMB.collectedReturns
      = [demoCurveB.log_returns, demoCurveC.log_returns] := by
    simp [HJMModel.collectedReturns, demoHJMB, demoMarketB,
      List.filterMap_cons, demoCurveB, demoCurveC]
  have hlB : demoCurveB.log_returns.length = 2 := by
    unfold ForwardCurve.log_returns
    rw [diffList_length, List.length_map]
    simp [demoCurveB]
  have hlC : demoCurveC.log_returns.length = 3 := by
    unfold ForwardCurve.log_returns
    rw [diffList_length, List.length_map]
    simp [demoCurveC]
  rw [HJMModel.calibMatrix, hcol]
  simp only [List.foldl_cons, List.foldl_nil, List.map_cons, List.map_nil,
    hlB, hlC, List.drop_zero]
  norm_num

/-- C2 witness: on the two-curve model the matrix exists, `L = 2` is the
minimum collected length, and both columns are trailing 2-segments. -/
theorem C2_witness :
    demoHJMB.calibMatrix
      = some [demoCurveB.log_returns, demoCurveC.log_returns.drop 1]
  ∧ ∃ L, L ∈ demoHJMB.collectedReturns.map List.length
      ∧ (∀ n ∈ demoHJMB.collectedReturns.map List.length, L ≤ n)
      ∧ [demoCurveB.log_returns, demoCurveC.log_returns.drop 1]
          = demoHJMB.collectedReturns.map fun r => r.drop (r.length - L) :=
  ⟨demoHJMB_calibMatrix,
    (C2_calibrate_collection_alignment demoHJMB).2.2 _ demoHJMB_calibMatrix⟩

/-- C10: `HJMModel.calibrate()` mutates only the owned volatility model's
calibrated parameters: whenever it succeeds, the market mapping (hence
every market's curve mapping and every stored curve's dates and prices) is
unchanged, and the only change is the volatility model replaced by the
result of its own `calibrate` on the observation matrix.  (When it fails,
the exception propagates before any mutation; in this pure embedding the
failing branch returns `none` and no updated model exists at all.) -/
theorem C10_calibrate_frame {V : Type} (calib : V → List (List ℝ) → V)
    (m m' : HJMModel V) (h : HJMModel.calibrate calib m = some m') :
    m'.markets = m.markets
  ∧ ∃ mat, m.calibMatrix = some mat
      ∧ m'.vol_model = calib m.vol_model mat := by
  unfold HJMModel.calibrate at h
  cases hm : m.calibMatrix with
  | none => rw [hm] at h; cases h
  | some mat =>
    rw [hm] at h
    simp only [Option.some.injEq] at h
    subst h
    exact ⟨rfl, mat, rfl, rfl⟩

/-- C10 witness: calibrating the two-curve demonstration model (with a
volatility model whose `calibrate` is state-preserving, so the result can
be named concretely) succeeds and leaves the market mapping unchanged. -/
theorem C10_witness :
    HJMModel.calibrate (fun (v : Unit) _ => v) demoHJMB = some demoHJMB
  ∧ demoHJMB.markets = demoHJMB.markets
  ∧ ∃ mat, demoHJMB.calibMatrix = some mat
      ∧ demoHJMB.vol_model = (fun (v : Unit) _ => v) demoHJMB.vol_model mat := by
  have hcal : HJMModel.calibrate (fun (v : Unit) _ => v) demoHJMB
      = some demoHJMB := by
    unfold HJMModel.calibrate
    rw [demoHJMB_calibMatrix]
  have h := C10_calibrate_frame (fun (v : Unit) _ => v) demoHJMB demoHJMB hcal
  exact ⟨hcal, h.1, h.2⟩

end Hjmpy
